import Mathlib

/-!
Verification of the `muv` package (descriptors.py, spatial.py) against its
specification.  The Python source is shallowly embedded below: rings become
`Finset ℕ`, matrices become `List (List ℚ)`, and IEEE `+inf` entries (which
arise only from the diagonal replacement in `spread`) become `none` in an
`Option ℚ` entry, with `none < t` false for every finite `t`, exactly as in
floating point.  `NaN` results (mean of an empty array) are modelled as a
`none` result.
-/

namespace Muv

/-! ## descriptors.py -/

/-- Chirality tags exposed by the structure collaborator
(`rdkit.Chem.ChiralType`).  Only the two tetrahedral variants are inspected
by the code. -/
inductive ChiralType where
  | CHI_UNSPECIFIED
  | CHI_TETRAHEDRAL_CW
  | CHI_TETRAHEDRAL_CCW
  | CHI_OTHER
  deriving DecidableEq, Repr

/-- One atom of a structure, as consumed by `calculate_descriptors`:
an atomic number (`atom.GetAtomicNum()`) and a chirality tag
(`atom.GetChiralTag()`). -/
structure Atom where
  atomicNum : ℕ
  chiralTag : ChiralType
  deriving DecidableEq, Repr

/-- A structure as seen by `calculate_descriptors` after the collaborator
preparation steps (`Chem.AddHs`, `Chem.AssignStereochemistry`) have
succeeded: the explicit-hydrogen atom list, the elementary rings
(`mol.GetRingInfo().AtomRings()`, each ring as a set of atom indices), and
the three externally computed scalars (`CalcNumHBA`, `CalcNumHBD`, and the
first Crippen descriptor `cLogP`; the second Crippen value is discarded by
the code and therefore not modelled). -/
structure Mol where
  atoms : List Atom
  rings : List (Finset ℕ)
  numHBA : ℕ
  numHBD : ℕ
  cLogP : ℚ

/-- Embedding of `MUVDescriptors.atom_counts`: tally of atoms per atomic number.  The
Python dict is modelled as its lookup function; a key is present in the
dict exactly when the tally is positive. -/
def atom_counts (m : Mol) : ℕ → ℕ :=
  fun z => m.atoms.countP (fun a => a.atomicNum = z)

/-- Loop body state of `count_ring_systems`: the running seen-set
`ring_atoms` and the counter `n_ring_systems`; one recursive step per ring
processed, in list order. -/
def countRingSystemsAux (ring_atoms : Finset ℕ) (n_ring_systems : ℕ) :
    List (Finset ℕ) → ℕ
  | [] => n_ring_systems
  | ring :: rest =>
      countRingSystemsAux (ring_atoms ∪ ring)
        (if (ring_atoms ∩ ring).card = 0 then n_ring_systems + 1
         else n_ring_systems) rest

/-- Embedding of `MUVDescriptors.count_ring_systems`: single pass over the rings,
incrementing the counter exactly when the ring shares no atom with the
running seen-set, and always unioning the ring into the seen-set. -/
def count_ring_systems (rings : List (Finset ℕ)) : ℕ :=
  countRingSystemsAux ∅ 0 rings

/-- The tracked elements with their atomic numbers (B 5, Br 35, C 6,
Cl 17, F 9, I 53, N 7, O 8, P 15, S 16), in the order produced by
Python's `sorted` over the symbol keys: B, Br, C, Cl, F, I, N, O, P, S. -/
def sortedElementNumbers : List ℕ := [5, 35, 6, 17, 9, 53, 7, 8, 15, 16]

/-- Embedding of `MUVDescriptors.calculate_descriptors`: the 17-field vector, built in
the source's append order.  `GetNumAtoms` is the length of the explicit-H
atom list, `GetNumHeavyAtoms` counts atoms with atomic number above 1
(non-hydrogens), the element fields follow the dict-membership test of the
source (`if atoms[name] in counts`), and the chiral count keeps only the
two tetrahedral tags. -/
def calculate_descriptors (m : Mol) : List ℚ :=
  let counts := atom_counts m
  let total : ℕ := m.atoms.length
  let heavy : ℕ := m.atoms.countP (fun a => 1 < a.atomicNum)
  let elementFields : List ℚ :=
    sortedElementNumbers.map
      (fun z => if 0 < counts z then ((counts z : ℕ) : ℚ) else 0)
  let n_chiral : ℕ := m.atoms.countP
    (fun a => a.chiralTag = ChiralType.CHI_TETRAHEDRAL_CW ∨
              a.chiralTag = ChiralType.CHI_TETRAHEDRAL_CCW)
  ((total : ℚ) :: (heavy : ℚ) :: elementFields) ++
    [(m.numHBA : ℚ), (m.numHBD : ℚ), m.cLogP,
     (n_chiral : ℚ), (count_ring_systems m.rings : ℚ)]

/-! ## spatial.py -/

/-- A 2-D array of reals, rows on the first axis (set A), columns on the
second axis (set B). -/
abbrev Matrix := List (List ℚ)

/-- An entry of the effective matrix used inside `spread`: `some q` is the
finite value `q`; `none` is the IEEE `+inf` written over the diagonal by
the self-comparison branch. -/
abbrev Entry := Option ℚ

/-- The comparison `e < t` on effective entries: `+inf < t` is false for
every finite threshold `t`, as in floating point. -/
def entryLt (e : Entry) (t : ℚ) : Bool :=
  match e with
  | some q => decide (q < t)
  | none => false

/-- Entry lookup `d[i][j]`, defaulting to 0 outside the matrix (only used
at in-bounds indices). -/
def ent (d : Matrix) (i j : ℕ) : ℚ := (d.getD i []).getD j 0

/-- Embedding of `scipy.spatial.distance.is_valid_dm` at its default tolerance 0: the
array is square (every row as long as there are rows), exactly symmetric,
and has an exactly zero diagonal.  Non-negativity of the entries is NOT
checked. -/
def isValidDM (d : Matrix) : Bool :=
  d.all (fun row => row.length = d.length) &&
  (List.range d.length).all (fun i =>
    (List.range d.length).all (fun j => ent d i j = ent d j i)) &&
  (List.range d.length).all (fun i => ent d i i = 0)

/-- The effective matrix of `spread`: when `is_valid_dm` accepts `d` the
diagonal entries are overwritten with `+inf` (`none`); otherwise every
entry participates unchanged. -/
def effectiveMatrix (d : Matrix) : List (List Entry) :=
  if isValidDM d then
    d.enum.map (fun p =>
      p.2.enum.map (fun q => if p.1 = q.1 then none else some q.2))
  else
    d.map (fun row => row.map some)

/-- Embedding of `spread(d, t)`: the mean over rows of the indicator "the row has some
entry strictly below `t`", taken on the effective matrix.  For a matrix
with zero rows, `np.mean` of an empty array is `NaN`, modelled as `none`;
otherwise the result is `some` of the fraction of rows. -/
def spread (d : Matrix) (t : ℚ) : Option ℚ :=
  if d.length = 0 then none
  else
    some
      (((effectiveMatrix d).countP
          (fun row => row.any (fun e => entryLt e t)) : ℚ) / (d.length : ℚ))

/-- The failure outcomes of `sum_of_spreads`.  `zeroDivision` is Python's
`ZeroDivisionError` raised by `(max_t - min_t) / step` when `step = 0`;
`negSamples` is the `ValueError` raised by `np.linspace` when the computed
sample count is negative.  `invalidParameter` renders the spec's
`InvalidParameter` condition so that it can be stated; the embedded code
never produces it. -/
inductive SpatialError where
  | zeroDivision
  | negSamples
  | invalidParameter
  deriving DecidableEq, Repr

/-- Python `int()` on a real: truncation toward zero. -/
def pyInt (q : ℚ) : ℤ := if 0 ≤ q then ⌊q⌋ else ⌈q⌉

/-- Embedding of `np.linspace(a, b, n)` (endpoint included): `n` evenly spaced samples;
for `n ≥ 2` sample `i` is `a + (b - a) * i / (n - 1)`, so the samples run
from `a` to `b` inclusive; for `n = 1` the single sample is `a`; for
`n = 0` the result is empty. -/
def linspace (a b : ℚ) (n : ℕ) : List ℚ :=
  if n = 0 then []
  else if n = 1 then [a]
  else (List.range n).map
    (fun (i : ℕ) => a + (b - a) * (i : ℚ) / ((n : ℚ) - 1))

/-- The threshold sweep of `sum_of_spreads`:
`coeff * np.linspace(min_t, max_t, int((max_t - min_t) / step))`, with the
source's two failure modes surfaced as errors. -/
def thresholdSweep (coeff min_t max_t step : ℚ) :
    Except SpatialError (List ℚ) :=
  if step = 0 then .error .zeroDivision
  else
    let n : ℤ := pyInt ((max_t - min_t) / step)
    if n < 0 then .error .negSamples
    else .ok ((linspace min_t max_t n.toNat).map (fun x => coeff * x))

/-- Addition with `NaN` (`none`) propagation, as in floating point. -/
def addOpt (x y : Option ℚ) : Option ℚ :=
  match x, y with
  | some a, some b => some (a + b)
  | _, _ => none

/-- Embedding of `np.sum` over a list of possibly-`NaN` reals: 0 on the empty list,
`NaN` as soon as one term is `NaN`. -/
def sumOpt (l : List (Option ℚ)) : Option ℚ := l.foldr addOpt (some 0)

/-- Subtraction with `NaN` propagation. -/
def subOpt (x y : Option ℚ) : Option ℚ :=
  match x, y with
  | some a, some b => some (a - b)
  | _, _ => none

/-- Embedding of `sum_of_spreads(d, coeff, min_t, max_t, step, diff)`.  `step = none`
models the unsupplied optional argument, defaulted to `max_t / 500`;
`diff = none` models the unsupplied difference matrix.  Sweep failures
propagate; otherwise the per-threshold spreads (or per-threshold spread
differences when `diff` is supplied) are summed. -/
def sum_of_spreads (d : Matrix) (coeff min_t max_t : ℚ)
    (step : Option ℚ) (diff : Option Matrix) :
    Except SpatialError (Option ℚ) :=
  let s : ℚ := match step with
    | none => max_t / 500
    | some v => v
  match thresholdSweep coeff min_t max_t s with
  | .error e => .error e
  | .ok thresholds =>
      match diff with
      | none => .ok (sumOpt (thresholds.map (fun t => spread d t)))
      | some df =>
          .ok (sumOpt (thresholds.map
            (fun t => subOpt (spread d t) (spread df t))))

/-! ## Reference definition for the ring-system claim -/

/-- Reference accumulation of the spec (section 4.1), written from the spec's words: fold over
the rings in the order given, carrying the pair (counter, seen-set) from
(0, empty); a ring whose atom set has empty intersection with the seen-set
increments the counter; the ring's atoms are always unioned into the
seen-set; the final counter is returned. -/
def ringSystemsSpec (rings : List (Finset ℕ)) : ℕ :=
  (rings.foldl
    (fun acc ring =>
      (if acc.2 ∩ ring = ∅ then acc.1 + 1 else acc.1, acc.2 ∪ ring))
    ((0 : ℕ), (∅ : Finset ℕ))).1

/-! ## Lemmas about `count_ring_systems` -/

theorem le_countRingSystemsAux (rings : List (Finset ℕ)) :
    ∀ seen n, n ≤ countRingSystemsAux seen n rings := by
  induction rings with
  | nil => intro seen n; simp [countRingSystemsAux]
  | cons r rs ih =>
      intro seen n
      simp only [countRingSystemsAux]
      exact le_trans (by split <;> omega) (ih (seen ∪ r) _)

theorem countRingSystemsAux_le (rings : List (Finset ℕ)) :
    ∀ seen n, countRingSystemsAux seen n rings ≤ n + rings.length := by
  induction rings with
  | nil => intro seen n; simp [countRingSystemsAux]
  | cons r rs ih =>
      intro seen n
      simp only [countRingSystemsAux, List.length_cons]
      exact le_trans (ih (seen ∪ r) _) (by split <;> omega)

theorem countRingSystemsAux_eq_foldl (rings : List (Finset ℕ)) :
    ∀ seen n,
      countRingSystemsAux seen n rings =
        (rings.foldl
          (fun acc ring =>
            (if acc.2 ∩ ring = ∅ then acc.1 + 1 else acc.1, acc.2 ∪ ring))
          (n, seen)).1 := by
  induction rings with
  | nil => intro seen n; simp [countRingSystemsAux]
  | cons r rs ih =>
      intro seen n
      simp only [countRingSystemsAux, List.foldl_cons, Finset.card_eq_zero]
      exact ih (seen ∪ r) _

/-- C1: `count_ring_systems` implements the reference single-pass
accumulation: starting from an empty seen-set and counter 0 it processes
rings in order, increments exactly on empty intersection with the
seen-set, always unions the ring's atoms in, and returns the final
counter; the rings {1,2,3}, {4,5,6}, {3,4,7} in that order yield 2 (the
documented under-merge), an empty list yields 0, a single ring yields 1,
two disjoint rings yield 2, and two rings sharing an atom yield 1. -/
theorem count_ring_systems_correct :
    (∀ rings : List (Finset ℕ),
        count_ring_systems rings = ringSystemsSpec rings) ∧
    count_ring_systems [({1, 2, 3} : Finset ℕ), {4, 5, 6}, {3, 4, 7}] = 2 ∧
    count_ring_systems ([] : List (Finset ℕ)) = 0 ∧
    (∀ r : Finset ℕ, count_ring_systems [r] = 1) ∧
    (∀ r₁ r₂ : Finset ℕ, r₁ ∩ r₂ = ∅ → count_ring_systems [r₁, r₂] = 2) ∧
    (∀ r₁ r₂ : Finset ℕ, (r₁ ∩ r₂).Nonempty →
        count_ring_systems [r₁, r₂] = 1) := by
  refine ⟨fun rings => countRingSystemsAux_eq_foldl rings ∅ 0,
    by decide, rfl, ?_, ?_, ?_⟩
  · intro r
    simp [count_ring_systems, countRingSystemsAux]
  · intro r₁ r₂ h
    simp [count_ring_systems, countRingSystemsAux, h]
  · intro r₁ r₂ h
    simp [count_ring_systems, countRingSystemsAux, Finset.card_eq_zero,
      h.ne_empty]

/-- Witness for `count_ring_systems_correct`: two concrete disjoint rings
yield 2 and two concrete overlapping rings yield 1. -/
theorem count_ring_systems_correct_witness :
    count_ring_systems [({1} : Finset ℕ), {2}] = 2 ∧
    count_ring_systems [({1, 2} : Finset ℕ), {2, 3}] = 1 :=
  ⟨count_ring_systems_correct.2.2.2.2.1 {1} {2} (by decide),
   count_ring_systems_correct.2.2.2.2.2 {1, 2} {2, 3} ⟨2, by decide⟩⟩

/-- C9: `count_ring_systems` always returns between 0 and the number of
rings, and returns 0 exactly when the ring list is empty (the first
processed ring always increments the counter). -/
theorem count_ring_systems_bounds :
    ∀ rings : List (Finset ℕ),
      count_ring_systems rings ≤ rings.length ∧
      (count_ring_systems rings = 0 ↔ rings = []) := by
  intro rings
  refine ⟨by simpa using countRingSystemsAux_le rings ∅ 0, ?_, ?_⟩
  · intro h
    cases rings with
    | nil => rfl
    | cons r rs =>
        exfalso
        have h1 : count_ring_systems (r :: rs) = countRingSystemsAux r 1 rs := by
          simp [count_ring_systems, countRingSystemsAux]
        have h2 := le_countRingSystemsAux rs r 1
        rw [h1] at h
        omega
  · intro h
    subst h
    rfl

/-! ## Lemmas about `spread` -/

theorem effectiveMatrix_length (d : Matrix) :
    (effectiveMatrix d).length = d.length := by
  simp only [effectiveMatrix]
  split <;> simp [List.enum_length]

theorem spread_eq_some {d : Matrix} (t : ℚ) (h : 0 < d.length) :
    spread d t =
      some (((effectiveMatrix d).countP
        (fun row => row.any (fun e => entryLt e t)) : ℚ) / (d.length : ℚ)) := by
  simp only [spread]
  rw [if_neg (by omega)]

theorem entryLt_mono {e : Entry} {t₁ t₂ : ℚ} (h : t₁ ≤ t₂)
    (h₁ : entryLt e t₁ = true) : entryLt e t₂ = true := by
  cases e with
  | none => simp [entryLt] at h₁
  | some q =>
      simp only [entryLt, decide_eq_true_eq] at h₁ ⊢
      exact lt_of_lt_of_le h₁ h

theorem spreadCount_le (d : Matrix) (t : ℚ) :
    (effectiveMatrix d).countP (fun row => row.any (fun e => entryLt e t)) ≤
      d.length := by
  calc (effectiveMatrix d).countP _ ≤ (effectiveMatrix d).length :=
        List.countP_le_length _
    _ = d.length := effectiveMatrix_length d

theorem spread_bounds (d : Matrix) (t : ℚ) (h : 0 < d.length) :
    ∃ q, spread d t = some q ∧ 0 ≤ q ∧ q ≤ 1 := by
  refine ⟨_, spread_eq_some t h, ?_, ?_⟩
  · exact div_nonneg (Nat.cast_nonneg _) (Nat.cast_nonneg _)
  · rw [div_le_one (by exact_mod_cast h)]
    exact_mod_cast spreadCount_le d t

/-- Every entry of the effective matrix is either the replaced-diagonal
`+inf` or one of the original entries of `d`. -/
theorem effectiveMatrix_entry_cases {d : Matrix} {row : List Entry}
    (hrow : row ∈ effectiveMatrix d) {e : Entry} (he : e ∈ row) :
    e = none ∨ ∃ r ∈ d, ∃ x ∈ r, e = some x := by
  simp only [effectiveMatrix] at hrow
  split at hrow
  · rcases List.mem_map.mp hrow with ⟨⟨i, r⟩, hir, rfl⟩
    rcases List.mem_map.mp he with ⟨⟨j, x⟩, hjx, rfl⟩
    by_cases hij : i = j
    · left; simp [hij]
    · right
      refine ⟨r, ?_, x, ?_, by simp [hij]⟩
      · exact List.getElem?_mem (List.mem_enum_iff_getElem?.mp hir)
      · exact List.getElem?_mem (List.mem_enum_iff_getElem?.mp hjx)
  · rcases List.mem_map.mp hrow with ⟨r, hr, rfl⟩
    rcases List.mem_map.mp he with ⟨x, hx, rfl⟩
    right; exact ⟨r, hr, x, hx, rfl⟩

/-- C7: `spread` is monotonic non-decreasing in the threshold for a fixed
matrix (whenever both results are reals), and whenever every entry of `d`
is non-negative the result at threshold 0 is 0. -/
theorem spread_monotone_zero :
    (∀ (d : Matrix) (t₁ t₂ : ℚ), t₁ ≤ t₂ →
        ∀ q₁ q₂, spread d t₁ = some q₁ → spread d t₂ = some q₂ → q₁ ≤ q₂) ∧
    (∀ d : Matrix, (∀ row ∈ d, ∀ x ∈ row, 0 ≤ x) →
        ∀ q, spread d 0 = some q → q = 0) := by
  constructor
  · intro d t₁ t₂ ht q₁ q₂ h₁ h₂
    rcases Nat.eq_zero_or_pos d.length with hd | hd
    · simp [spread, hd] at h₁
    · rw [spread_eq_some t₁ hd] at h₁
      rw [spread_eq_some t₂ hd] at h₂
      obtain rfl : q₁ = _ := (Option.some_injective _ h₁).symm
      obtain rfl : q₂ = _ := (Option.some_injective _ h₂).symm
      have hcount : (effectiveMatrix d).countP
            (fun row => row.any (fun e => entryLt e t₁)) ≤
          (effectiveMatrix d).countP
            (fun row => row.any (fun e => entryLt e t₂)) := by
        refine List.countP_mono_left ?_
        intro row _ hany
        rcases List.any_eq_true.mp hany with ⟨e, he, hlt⟩
        exact List.any_eq_true.mpr ⟨e, he, entryLt_mono ht hlt⟩
      exact div_le_div_of_nonneg_right (by exact_mod_cast hcount)
        (Nat.cast_nonneg _)
  · intro d h0 q hq
    rcases Nat.eq_zero_or_pos d.length with hd | hd
    · simp [spread, hd] at hq
    · rw [spread_eq_some 0 hd] at hq
      have hcount : (effectiveMatrix d).countP
          (fun row => row.any (fun e => entryLt e 0)) = 0 := by
        rw [List.countP_eq_zero]
        intro row hrow hany
        rcases List.any_eq_true.mp hany with ⟨e, he, hlt⟩
        rcases effectiveMatrix_entry_cases hrow he with rfl | ⟨r, hr, x, hx, rfl⟩
        · simp [entryLt] at hlt
        · simp only [entryLt, decide_eq_true_eq] at hlt
          exact absurd (h0 r hr x hx) (not_le.mpr hlt)
      rw [hcount] at hq
      simpa using hq.symm

/-- Witness for `spread_monotone_zero` at the concrete matrix
[[0, 3], [10, 20]]: the spreads at thresholds 1 and 15 are 1/2 and 1, and
the spread at threshold 0 is 0. -/
theorem spread_monotone_zero_witness : ((1 : ℚ) / 2 ≤ 1) ∧ ((0 : ℚ) = 0) :=
  ⟨spread_monotone_zero.1 [[0, 3], [10, 20]] 1 15 (by norm_num) (1 / 2) 1
      (by simp +decide [spread, effectiveMatrix, isValidDM, ent, entryLt,
        List.enum])
      (by simp +decide [spread, effectiveMatrix, isValidDM, ent, entryLt,
        List.enum]),
   spread_monotone_zero.2 [[0, 3], [10, 20]] (by decide) 0
      (by simp +decide [spread, effectiveMatrix, isValidDM, ent, entryLt,
        List.enum])⟩

/-- The row fraction that claim C2 describes: the number of rows of `d`
itself containing at least one entry strictly below `t`, divided by the
total number of rows. -/
def plainRowFraction (d : Matrix) (t : ℚ) : ℚ :=
  (d.countP (fun row => row.any (fun x => decide (x < t))) : ℚ) /
    (d.length : ℚ)

/-- C2 counterexample: for the 1×1 matrix [[0]] at threshold 1 the claimed
formula counts the single row (its entry 0 is below 1) and gives 1, but
`spread` returns 0, because [[0]] is square, symmetric and zero-diagonal,
so the diagonal is replaced by +inf before thresholding. -/
theorem spread_rowFraction_counterexample :
    spread [[(0 : ℚ)]] 1 = some 0 ∧
    plainRowFraction [[(0 : ℚ)]] 1 = 1 ∧
    spread [[(0 : ℚ)]] 1 ≠ some (plainRowFraction [[(0 : ℚ)]] 1) := by
  refine ⟨?_, ?_, ?_⟩ <;>
    simp +decide [spread, effectiveMatrix, isValidDM, ent, entryLt,
      plainRowFraction, List.enum]

/-- C2 (amended): for every matrix with at least one row, `spread d t` is
`some` real in [0, 1]; that real equals the claimed plain row fraction
whenever `d` is not a square symmetric zero-diagonal matrix (for those the
diagonal entries are first replaced by +inf). -/
theorem spread_rowFraction (d : Matrix) (t : ℚ) (h : 0 < d.length) :
    ∃ q, spread d t = some q ∧ 0 ≤ q ∧ q ≤ 1 ∧
      (isValidDM d = false → q = plainRowFraction d t) := by
  rcases spread_bounds d t h with ⟨q, hq, h0, h1⟩
  refine ⟨q, hq, h0, h1, ?_⟩
  intro hv
  rw [spread_eq_some t h] at hq
  obtain rfl : q = _ := (Option.some_injective _ hq).symm
  have hcnt : (effectiveMatrix d).countP
      (fun row => row.any (fun e => entryLt e t)) =
      d.countP (fun row => row.any (fun x => decide (x < t))) := by
    rw [show effectiveMatrix d = d.map (fun row => row.map some) from by
      simp [effectiveMatrix, hv]]
    rw [List.countP_map]
    refine List.countP_congr ?_
    intro row _
    simp [Function.comp, List.any_map, entryLt]
  simp only [plainRowFraction]
  rw [hcnt]

/-- Witness for `spread_rowFraction` at the non-square matrix [[0, 1]]
and threshold 1. -/
theorem spread_rowFraction_witness :
    ∃ q, spread [[(0 : ℚ), 1]] 1 = some q ∧ 0 ≤ q ∧ q ≤ 1 ∧
      (isValidDM [[(0 : ℚ), 1]] = false →
        q = plainRowFraction [[(0 : ℚ), 1]] 1) :=
  spread_rowFraction [[0, 1]] 1 (by decide)

/-- C10: for a matrix with zero rows `spread` returns the mean of an empty
indicator sequence, i.e. `NaN` (modelled as `none`), not a real in [0, 1];
with at least one row the result is always `some` real in [0, 1]. -/
theorem spread_empty_nan :
    (∀ t : ℚ, spread ([] : Matrix) t = none) ∧
    (∀ (d : Matrix) (t : ℚ), 0 < d.length →
        ∃ q, spread d t = some q ∧ 0 ≤ q ∧ q ≤ 1) := by
  exact ⟨fun t => rfl, fun d t h => spread_bounds d t h⟩

/-- Witness for `spread_empty_nan` at the one-row matrix [[5]] and
threshold 2. -/
theorem spread_empty_nan_witness :
    ∃ q, spread [[(5 : ℚ)]] 2 = some q ∧ 0 ≤ q ∧ q ≤ 1 :=
  spread_empty_nan.2 [[5]] 2 (by decide)

/-- Entry `(i, j)` of the effective matrix used by `spread`, defaulting
to `some 0` outside the bounds (only consulted at in-bounds indices). -/
def effEnt (d : Matrix) (i j : ℕ) : Entry :=
  ((effectiveMatrix d).getD i []).getD j (some 0)

/-- The structural test exactly as claim C2/C3 words it: square,
symmetric, zero diagonal AND all entries non-negative. -/
def claimedValidDM (d : Matrix) : Bool :=
  isValidDM d && d.all (fun row => row.all (fun x => decide (0 ≤ x)))

theorem isValidDM_row_length {d : Matrix} (hv : isValidDM d = true)
    {r : List ℚ} (hr : r ∈ d) : r.length = d.length := by
  simp only [isValidDM, Bool.and_eq_true, List.all_eq_true,
    decide_eq_true_eq] at hv
  exact hv.1.1 r hr

/-- C3 counterexample: the matrix [[0,5,5],[5,0,-1],[5,-1,0]] fails the
claim's structural test (it has a negative entry), so by the claim all
entries should participate unchanged, giving row fraction 1 at threshold
1 (every diagonal 0 is below 1); but `is_valid_dm` does not check
non-negativity, so the code replaces the diagonal with +inf and returns
2/3. -/
theorem spread_structural_counterexample :
    claimedValidDM [[0, 5, 5], [5, 0, -1], [5, -1, 0]] = false ∧
    spread [[0, 5, 5], [5, 0, -1], [5, -1, 0]] 1 = some (2 / 3) ∧
    plainRowFraction [[0, 5, 5], [5, 0, -1], [5, -1, 0]] 1 = 1 ∧
    spread [[0, 5, 5], [5, 0, -1], [5, -1, 0]] 1 ≠
      some (plainRowFraction [[0, 5, 5], [5, 0, -1], [5, -1, 0]] 1) := by
  refine ⟨by decide, ?_, ?_, ?_⟩
  all_goals simp +decide [spread, effectiveMatrix, isValidDM, ent, entryLt,
    plainRowFraction, claimedValidDM, List.enum]
  all_goals norm_num

/-- C3 (amended): the structural test the code applies is exactly
"square, symmetric, zero diagonal" — non-negativity is not inspected.
When the test passes, every diagonal entry of the effective matrix is
+inf and every off-diagonal entry is unchanged, so a point never counts
as its own neighbor; when the test fails every entry participates
unchanged.  For d = [[0, 5], [5, 0]]: spread(d, 4) = 0 and
spread(d, 6) = 1. -/
theorem spread_self_comparison :
    (∀ (d : Matrix) (i j : ℕ), isValidDM d = true →
        i < d.length → j < d.length →
        effEnt d i j = if i = j then none else some (ent d i j)) ∧
    (∀ (d : Matrix) (i j : ℕ), isValidDM d = false →
        i < d.length → j < (d.getD i []).length →
        effEnt d i j = some (ent d i j)) ∧
    spread [[0, 5], [5, 0]] 4 = some 0 ∧
    spread [[0, 5], [5, 0]] 6 = some 1 := by
  refine ⟨?_, ?_, ?_, ?_⟩
  · intro d i j hv hi hj
    have hji : j < (d[i]).length := by
      rw [isValidDM_row_length hv (List.getElem_mem hi)]
      exact hj
    have h2 : ent d i j = (d[i])[j] := by
      simp only [ent]
      rw [List.getD_eq_getElem d [] hi, List.getD_eq_getElem _ _ hji]
    have hrow : (effectiveMatrix d).getD i [] =
        (d[i]).enum.map
          (fun q => if i = q.1 then none else some q.2) := by
      rw [show effectiveMatrix d =
          d.enum.map (fun p =>
            p.2.enum.map (fun q => if p.1 = q.1 then none else some q.2))
        from by simp [effectiveMatrix, hv]]
      rw [List.getD_eq_getElem _ _
        (show i < (d.enum.map (fun p =>
            p.2.enum.map (fun q =>
              if p.1 = q.1 then none else some q.2))).length from by
          simpa [List.enum_length] using hi)]
      simp [List.getElem_map, List.getElem_enum]
    simp only [effEnt]
    rw [hrow]
    rw [List.getD_eq_getElem _ _
      (show j < ((d[i]).enum.map
          (fun q => if i = q.1 then none else some q.2)).length from by
        simpa [List.enum_length] using hji)]
    simp [List.getElem_map, List.getElem_enum, h2]
  · intro d i j hv hi hj
    have hji : j < (d[i]).length := by
      rw [List.getD_eq_getElem d [] hi] at hj
      exact hj
    have h2 : ent d i j = (d[i])[j] := by
      simp only [ent]
      rw [List.getD_eq_getElem d [] hi, List.getD_eq_getElem _ _ hji]
    have hrow : (effectiveMatrix d).getD i [] = (d[i]).map some := by
      rw [show effectiveMatrix d = d.map (fun row => row.map some) from by
        simp [effectiveMatrix, hv]]
      rw [List.getD_eq_getElem _ _
        (show i < (d.map (fun row => row.map some)).length from by
          simpa using hi)]
      simp
    simp only [effEnt]
    rw [hrow]
    rw [List.getD_eq_getElem _ _
      (show j < ((d[i]).map some).length from by simpa using hji)]
    simp [List.getElem_map, h2]
  · simp +decide [spread, effectiveMatrix, isValidDM, ent, entryLt,
      List.enum]
  · simp +decide [spread, effectiveMatrix, isValidDM, ent, entryLt,
      List.enum]

/-- Witness for `spread_self_comparison`: the diagonal entry (0,0) of the
valid distance matrix [[0, 5], [5, 0]] becomes +inf, while entry (0,1) of
the non-symmetric matrix [[0, 1], [2, 3]] is unchanged. -/
theorem spread_self_comparison_witness :
    effEnt [[0, 5], [5, 0]] 0 0 = none ∧
    effEnt [[0, 1], [2, 3]] 0 1 = some 1 := by
  constructor
  · have h := spread_self_comparison.1 [[0, 5], [5, 0]] 0 0 (by decide)
      (by decide) (by decide)
    simpa using h
  · have h := spread_self_comparison.2.1 [[0, 1], [2, 3]] 0 1 (by decide)
      (by decide) (by decide)
    simpa [ent] using h

/-! ## Lemmas about `sum_of_spreads` -/

/-- C4 counterexample: with min_t = 0, max_t = 3, step = 2 and coeff = 1
the computed sample count is int(3 / 2) = 1 and the sweep is the single
point 0 = min_t; the upper endpoint max_t = 3 is not in the sweep, so the
sweep does not include both endpoints of [min_t, max_t].  Moreover the
sample count is Python's int(), truncation toward zero, not floor: with
min_t = 0, max_t = 1, step = -2 the quotient is -1/2, the code truncates
to 0 samples and succeeds with an empty sweep, while
floor((max_t - min_t) / step) = -1. -/
theorem sweep_endpoint_counterexample :
    thresholdSweep 1 0 3 2 = .ok [0] ∧ (3 : ℚ) ∉ ([0] : List ℚ) ∧
    thresholdSweep 1 0 1 (-2) = .ok [] ∧
    ⌊((1 : ℚ) - 0) / (-2)⌋ = -1 := by
  refine ⟨?_, by decide, ?_, ?_⟩
  · norm_num [thresholdSweep, pyInt, linspace, Int.toNat_ofNat]
  · norm_num [thresholdSweep, pyInt, linspace,
      show ⌈-(1 / 2 : ℚ)⌉ = 0 from by rw [Int.ceil_eq_iff] ; norm_num]
  · rw [Int.floor_eq_iff] ; norm_num

/-- C4 (amended): `sum_of_spreads` defaults an unsupplied step to
max_t / 500; the sample count is floor((max_t - min_t) / step) whenever
that quotient is non-negative; the sweep is `np.linspace` over
[min_t, max_t] with that many points, each multiplied by coeff — for
n_steps ≥ 2 spanning the closed interval inclusive of both endpoints, for
n_steps = 1 consisting of the single point min_t only; when n_steps = 0
the sweep is empty and the sum is 0; the result is the sum over the sweep
of spread(d, t), or of spread(d, t) - spread(diff, t) threshold-by-
threshold when diff is supplied. -/
theorem sum_of_spreads_sweep :
    (∀ (d : Matrix) (coeff min_t max_t : ℚ) (diff : Option Matrix),
        sum_of_spreads d coeff min_t max_t none diff =
          sum_of_spreads d coeff min_t max_t (some (max_t / 500)) diff) ∧
    (∀ coeff min_t max_t step : ℚ, step ≠ 0 →
        0 ≤ (max_t - min_t) / step →
        thresholdSweep coeff min_t max_t step =
          .ok ((linspace min_t max_t (⌊(max_t - min_t) / step⌋).toNat).map
            (fun x => coeff * x))) ∧
    (∀ (a b : ℚ) (n : ℕ),
        (linspace a b n).length = n ∧
        (2 ≤ n →
          (linspace a b n).getD 0 0 = a ∧
          (linspace a b n).getD (n - 1) 0 = b ∧
          ∀ i, i < n → (linspace a b n).getD i 0 =
            a + (b - a) * (i : ℚ) / ((n : ℚ) - 1)) ∧
        (n = 1 → linspace a b n = [a]) ∧
        (n = 0 → linspace a b n = [])) ∧
    (∀ (d : Matrix) (coeff min_t max_t step : ℚ) (diff : Option Matrix),
        step ≠ 0 → pyInt ((max_t - min_t) / step) = 0 →
        sum_of_spreads d coeff min_t max_t (some step) diff =
          .ok (some 0)) ∧
    (∀ (d df : Matrix) (coeff min_t max_t step : ℚ) (ts : List ℚ),
        thresholdSweep coeff min_t max_t step = .ok ts →
        sum_of_spreads d coeff min_t max_t (some step) (some df) =
          .ok (sumOpt (ts.map
            (fun t => subOpt (spread d t) (spread df t))))) ∧
    (∀ (d : Matrix) (coeff min_t max_t step : ℚ) (ts : List ℚ),
        thresholdSweep coeff min_t max_t step = .ok ts →
        sum_of_spreads d coeff min_t max_t (some step) none =
          .ok (sumOpt (ts.map (fun t => spread d t)))) := by
  refine ⟨fun d coeff min_t max_t diff => rfl, ?_, ?_, ?_, ?_, ?_⟩
  · intro coeff min_t max_t step hstep h0
    simp only [thresholdSweep, if_neg hstep]
    rw [show pyInt ((max_t - min_t) / step) = ⌊(max_t - min_t) / step⌋ from
      by simp [pyInt, h0]]
    rw [if_neg (Int.not_lt.mpr (Int.floor_nonneg.mpr h0))]
  · intro a b n
    refine ⟨?_, ?_, ?_, ?_⟩
    · simp only [linspace]
      split
      · simp [*]
      · split
        · simp [*]
        · simp only [List.length_map, List.length_range]
    · intro hn
      have h0' : ¬ n = 0 := by omega
      have h1' : ¬ n = 1 := by omega
      have hform : ∀ i, i < n → (linspace a b n).getD i 0 =
          a + (b - a) * (i : ℚ) / ((n : ℚ) - 1) := by
        intro i hi
        simp only [linspace, if_neg h0', if_neg h1']
        rw [List.getD_eq_getElem _ _
          (show i < ((List.range n).map (fun (i : ℕ) =>
              a + (b - a) * (i : ℚ) / ((n : ℚ) - 1))).length from by
            simp only [List.length_map, List.length_range]
            exact hi)]
        simp only [List.getElem_map, List.getElem_range]
      refine ⟨?_, ?_, hform⟩
      · rw [hform 0 (by omega)]; simp
      · rw [hform (n - 1) (by omega)]
        have hc : ((n : ℚ) - 1) ≠ 0 := by
          have h2 : (2 : ℚ) ≤ (n : ℚ) := by exact_mod_cast hn
          linarith
        have hcast : (((n - 1 : ℕ)) : ℚ) = (n : ℚ) - 1 := by
          push_cast [Nat.cast_sub (show 1 ≤ n by omega)]
          ring
        rw [hcast, mul_div_assoc, div_self hc, mul_one]
        ring
    · intro h1
      simp [linspace, h1]
    · intro h0
      simp [linspace, h0]
  · intro d coeff min_t max_t step diff hstep hn
    have hts : thresholdSweep coeff min_t max_t step = .ok [] := by
      simp only [thresholdSweep, if_neg hstep]
      simp [hn, linspace]
    simp only [sum_of_spreads]
    rw [hts]
    cases diff <;> rfl
  · intro d df coeff min_t max_t step ts hts
    simp only [sum_of_spreads]
    rw [hts]
  · intro d coeff min_t max_t step ts hts
    simp only [sum_of_spreads]
    rw [hts]

/-- Witness for `sum_of_spreads_sweep` at concrete parameters: step 1 over
[0, 3] yields the three thresholds 0, 3/2, 3 (both endpoints included);
step 4 over [0, 3] yields an empty sweep summing to 0; with a difference
matrix the result is the per-threshold difference sum. -/
theorem sum_of_spreads_sweep_witness :
    thresholdSweep 1 0 3 1 = .ok [0, 3 / 2, 3] ∧
    (linspace 0 3 3).getD 0 0 = 0 ∧
    (linspace 0 3 3).getD 2 0 = 3 ∧
    linspace (0 : ℚ) 3 1 = [0] ∧
    sum_of_spreads [[0, 1]] 1 0 3 (some 4) none = .ok (some 0) ∧
    sum_of_spreads [[0, 1]] 1 0 3 (some (3 / 2)) (some [[0, 1]]) =
      .ok (sumOpt ([(0 : ℚ), 3].map
        (fun t => subOpt (spread [[0, 1]] t) (spread [[0, 1]] t)))) ∧
    sum_of_spreads [[0, 1]] 1 0 3 (some (3 / 2)) none =
      .ok (sumOpt ([(0 : ℚ), 3].map (fun t => spread [[0, 1]] t))) := by
  refine ⟨?_, ?_, ?_, ?_, ?_, ?_, ?_⟩
  · have h := sum_of_spreads_sweep.2.1 1 0 3 1 (by norm_num) (by norm_num)
    rw [h]
    norm_num [linspace, show (3 : ℤ).toNat = 3 from rfl, List.range_succ]
  · exact ((sum_of_spreads_sweep.2.2.1 0 3 3).2.1 (by norm_num)).1
  · exact ((sum_of_spreads_sweep.2.2.1 0 3 3).2.1 (by norm_num)).2.1
  · exact (sum_of_spreads_sweep.2.2.1 0 3 1).2.2.1 rfl
  · exact sum_of_spreads_sweep.2.2.2.1 [[0, 1]] 1 0 3 4 none (by norm_num)
      (by norm_num [pyInt])
  · exact sum_of_spreads_sweep.2.2.2.2.1 [[0, 1]] [[0, 1]] 1 0 3 (3 / 2)
      [0, 3]
      (by norm_num [thresholdSweep, pyInt, linspace,
        show (2 : ℤ).toNat = 2 from rfl, List.range_succ])
  · exact sum_of_spreads_sweep.2.2.2.2.2 [[0, 1]] 1 0 3 (3 / 2) [0, 3]
      (by norm_num [thresholdSweep, pyInt, linspace,
        show (2 : ℤ).toNat = 2 from rfl, List.range_succ])

theorem thresholdSweep_error_cases (coeff min_t max_t step : ℚ)
    (e : SpatialError)
    (h : thresholdSweep coeff min_t max_t step = .error e) :
    e = .zeroDivision ∨ e = .negSamples := by
  by_cases hs : step = 0
  · simp only [thresholdSweep, if_pos hs] at h
    injection h with h2
    exact Or.inl h2.symm
  · simp only [thresholdSweep, if_neg hs] at h
    split at h
    · injection h with h2
      exact Or.inr h2.symm
    · cases h

/-- C5 counterexample: an explicitly supplied step ≤ 0 does not produce an
InvalidParameter condition.  With the default range [0, 3]: step = -1
fails with the negative-sample-count ValueError from `np.linspace` and
step = 0 fails with a ZeroDivisionError — both "some other error"; and
with min_t = 3, max_t = 0 the explicitly negative step = -1 does not fail
at all: it produces the decreasing sweep [3, 3/2, 0] and returns 2. -/
theorem sum_of_spreads_step_counterexample :
    sum_of_spreads [[0, 1]] 1 0 3 (some (-1)) none =
      .error .negSamples ∧
    sum_of_spreads [[0, 1]] 1 0 3 (some 0) none =
      .error .zeroDivision ∧
    sum_of_spreads [[0, 1]] 1 3 0 (some (-1)) none = .ok (some 2) := by
  refine ⟨?_, ?_, ?_⟩
  · norm_num [sum_of_spreads, thresholdSweep, pyInt,
      show ⌈(-3 : ℚ)⌉ = -3 from by decide]
  · norm_num [sum_of_spreads, thresholdSweep]
  · have hts : thresholdSweep 1 3 0 (-1) = .ok [3, 3 / 2, 0] := by
      norm_num [thresholdSweep, pyInt, linspace,
        show (3 : ℤ).toNat = 3 from rfl, List.range_succ]
    have h1 : spread [[(0 : ℚ), 1]] 3 = some 1 := by
      simp +decide [spread, effectiveMatrix, isValidDM, ent, entryLt,
        List.enum]
    have h2 : spread [[(0 : ℚ), 1]] (3 / 2) = some 1 := by
      simp +decide [spread, effectiveMatrix, isValidDM, ent, entryLt,
        List.enum]
    have h3 : spread [[(0 : ℚ), 1]] 0 = some 0 := by
      simp +decide [spread, effectiveMatrix, isValidDM, ent, entryLt,
        List.enum]
    simp only [sum_of_spreads]
    rw [hts]
    show Except.ok (sumOpt ([(3 : ℚ), 3 / 2, 0].map
      (fun t => spread [[(0 : ℚ), 1]] t))) = .ok (some 2)
    simp only [List.map_cons, List.map_nil, h1, h2, h3]
    norm_num [sumOpt, addOpt]

/-- C5 (amended): `sum_of_spreads` performs no step validation and never
produces an InvalidParameter condition.  An explicit step = 0 fails with
the division-by-zero error from computing the sample count; a step ≠ 0
fails with the negative-sample-count error exactly when
(max_t - min_t) / step ≤ -1 (in particular step < 0 with
max_t - min_t ≥ -step); in every other case, including negative steps
with max_t ≤ min_t, the call succeeds. -/
theorem sum_of_spreads_step_validation :
    (∀ (d : Matrix) (coeff min_t max_t : ℚ) (diff : Option Matrix),
        sum_of_spreads d coeff min_t max_t (some 0) diff =
          .error .zeroDivision) ∧
    (∀ (d : Matrix) (coeff min_t max_t step : ℚ) (diff : Option Matrix),
        step ≠ 0 → (max_t - min_t) / step ≤ -1 →
        sum_of_spreads d coeff min_t max_t (some step) diff =
          .error .negSamples) ∧
    (∀ (d : Matrix) (coeff min_t max_t step : ℚ) (diff : Option Matrix),
        step ≠ 0 → -1 < (max_t - min_t) / step →
        ∃ r, sum_of_spreads d coeff min_t max_t (some step) diff = .ok r) ∧
    (∀ (d : Matrix) (coeff min_t max_t : ℚ) (step : Option ℚ)
        (diff : Option Matrix) (e : SpatialError),
        sum_of_spreads d coeff min_t max_t step diff = .error e →
        e ≠ .invalidParameter) := by
  refine ⟨?_, ?_, ?_, ?_⟩
  · intro d coeff min_t max_t diff
    simp [sum_of_spreads, thresholdSweep]
  · intro d coeff min_t max_t step diff hs hq
    have hts : thresholdSweep coeff min_t max_t step =
        .error .negSamples := by
      simp only [thresholdSweep, if_neg hs]
      have hneg : (max_t - min_t) / step < 0 :=
        lt_of_le_of_lt hq (by norm_num)
      have hn : pyInt ((max_t - min_t) / step) < 0 := by
        simp only [pyInt, if_neg (not_le.mpr hneg)]
        have hc : ⌈(max_t - min_t) / step⌉ ≤ -1 :=
          Int.ceil_le.mpr (by exact_mod_cast hq)
        omega
      rw [if_pos hn]
    simp only [sum_of_spreads]
    rw [hts]
  · intro d coeff min_t max_t step diff hs hq
    have hn : 0 ≤ pyInt ((max_t - min_t) / step) := by
      by_cases h0 : 0 ≤ (max_t - min_t) / step
      · simp only [pyInt, if_pos h0]
        exact Int.floor_nonneg.mpr h0
      · simp only [pyInt, if_neg h0]
        have hc : (-1 : ℤ) < ⌈(max_t - min_t) / step⌉ :=
          Int.lt_ceil.mpr (by exact_mod_cast hq)
        omega
    have hts : ∃ ts, thresholdSweep coeff min_t max_t step = .ok ts := by
      simp only [thresholdSweep, if_neg hs]
      rw [if_neg (by omega)]
      exact ⟨_, rfl⟩
    rcases hts with ⟨ts, hts⟩
    simp only [sum_of_spreads]
    rw [hts]
    cases diff with
    | none => exact ⟨_, rfl⟩
    | some df => exact ⟨_, rfl⟩
  · intro d coeff min_t max_t step diff e h
    simp only [sum_of_spreads] at h
    split at h
    · next e2 heq =>
        injection h with h2
        subst h2
        rcases thresholdSweep_error_cases _ _ _ _ _ heq with rfl | rfl <;>
          simp
    · next ts heq =>
        cases diff with
        | none => cases h
        | some df => cases h

/-- Witness for `sum_of_spreads_step_validation`: concrete calls with
step 0, -2 and -4 over [0, 3], and the resulting error is never the
InvalidParameter condition. -/
theorem sum_of_spreads_step_validation_witness :
    sum_of_spreads [[0, 2]] 1 0 3 (some 0) none = .error .zeroDivision ∧
    sum_of_spreads [[0, 2]] 1 0 3 (some (-2)) none =
      .error .negSamples ∧
    (∃ r, sum_of_spreads [[0, 2]] 1 0 3 (some (-4)) none = .ok r) ∧
    SpatialError.zeroDivision ≠ SpatialError.invalidParameter := by
  refine ⟨sum_of_spreads_step_validation.1 [[0, 2]] 1 0 3 none,
    sum_of_spreads_step_validation.2.1 [[0, 2]] 1 0 3 (-2) none
      (by norm_num) (by norm_num),
    sum_of_spreads_step_validation.2.2.1 [[0, 2]] 1 0 3 (-4) none
      (by norm_num) (by norm_num),
    sum_of_spreads_step_validation.2.2.2 [[0, 2]] 1 0 3 (some 0) none
      .zeroDivision (by norm_num [sum_of_spreads, thresholdSweep])⟩

theorem sumOpt_map_zero (l : List ℚ) :
    sumOpt (l.map (fun _ => (some 0 : Option ℚ))) = some 0 := by
  induction l with
  | nil => rfl
  | cons x xs ih =>
      simp only [List.map_cons, sumOpt, List.foldr_cons]
      simp only [sumOpt] at ih
      rw [ih]
      simp [addOpt]

/-- C6: with the same matrix passed as both `d` and `diff`, every
per-threshold summand spread(d, t) - spread(d, t) is exactly 0, so for
every successful sweep and every coeff the returned sum is exactly 0. -/
theorem sum_of_spreads_self_diff (d : Matrix) (coeff min_t max_t : ℚ)
    (step : Option ℚ) (ts : List ℚ) (hd : 0 < d.length)
    (hts : thresholdSweep coeff min_t max_t
      (match step with | none => max_t / 500 | some v => v) = .ok ts) :
    sum_of_spreads d coeff min_t max_t step (some d) = .ok (some 0) := by
  simp only [sum_of_spreads]
  rw [hts]
  show Except.ok (sumOpt (ts.map
    (fun t => subOpt (spread d t) (spread d t)))) = .ok (some 0)
  have hmap : ts.map (fun t => subOpt (spread d t) (spread d t)) =
      ts.map (fun _ => (some 0 : Option ℚ)) := by
    refine List.map_congr_left ?_
    intro t _
    rw [spread_eq_some t hd]
    simp [subOpt]
  rw [hmap, sumOpt_map_zero]

/-- Witness for `sum_of_spreads_self_diff`: the concrete call with
d = diff = [[0, 1]], coeff = 7 and step = 1 over [0, 3] returns 0. -/
theorem sum_of_spreads_self_diff_witness :
    sum_of_spreads [[0, 1]] 7 0 3 (some 1) (some [[0, 1]]) =
      .ok (some 0) :=
  sum_of_spreads_self_diff [[0, 1]] 7 0 3 (some 1) [0, 21 / 2, 21]
    (by decide)
    (by norm_num [thresholdSweep, pyInt, linspace,
      show (3 : ℤ).toNat = 3 from rfl, List.range_succ])

theorem if_pos_count_cast (c : ℕ) :
    (if 0 < c then ((c : ℕ) : ℚ) else 0) = (c : ℚ) := by
  rcases Nat.eq_zero_or_pos c with h | h <;> simp [h]

/-- C8: for every structure on which the collaborator computations
succeeded, `calculate_descriptors` returns exactly 17 fields in the fixed
order: total atom count (after hydrogen addition), heavy-atom count
(atomic number above 1), counts for the 10 tracked elements in ascending
alphabetical symbol order B, Br, C, Cl, F, I, N, O, P, S (atomic numbers
5, 35, 6, 17, 9, 53, 7, 8, 15, 16; 0 when absent), acceptor count, donor
count, lipophilicity estimate, chiral-center count (only the two
tetrahedral tags), and ring-system count. -/
theorem calculate_descriptors_fields (m : Mol) :
    (calculate_descriptors m).length = 17 ∧
    calculate_descriptors m =
      [(m.atoms.length : ℚ),
       (m.atoms.countP (fun a => 1 < a.atomicNum) : ℚ),
       (m.atoms.countP (fun a => a.atomicNum = 5) : ℚ),
       (m.atoms.countP (fun a => a.atomicNum = 35) : ℚ),
       (m.atoms.countP (fun a => a.atomicNum = 6) : ℚ),
       (m.atoms.countP (fun a => a.atomicNum = 17) : ℚ),
       (m.atoms.countP (fun a => a.atomicNum = 9) : ℚ),
       (m.atoms.countP (fun a => a.atomicNum = 53) : ℚ),
       (m.atoms.countP (fun a => a.atomicNum = 7) : ℚ),
       (m.atoms.countP (fun a => a.atomicNum = 8) : ℚ),
       (m.atoms.countP (fun a => a.atomicNum = 15) : ℚ),
       (m.atoms.countP (fun a => a.atomicNum = 16) : ℚ),
       (m.numHBA : ℚ), (m.numHBD : ℚ), m.cLogP,
       (m.atoms.countP (fun a =>
          a.chiralTag = ChiralType.CHI_TETRAHEDRAL_CW ∨
          a.chiralTag = ChiralType.CHI_TETRAHEDRAL_CCW) : ℚ),
       (count_ring_systems m.rings : ℚ)] := by
  have hlist : calculate_descriptors m =
      [(m.atoms.length : ℚ),
       (m.atoms.countP (fun a => 1 < a.atomicNum) : ℚ),
       (m.atoms.countP (fun a => a.atomicNum = 5) : ℚ),
       (m.atoms.countP (fun a => a.atomicNum = 35) : ℚ),
       (m.atoms.countP (fun a => a.atomicNum = 6) : ℚ),
       (m.atoms.countP (fun a => a.atomicNum = 17) : ℚ),
       (m.atoms.countP (fun a => a.atomicNum = 9) : ℚ),
       (m.atoms.countP (fun a => a.atomicNum = 53) : ℚ),
       (m.atoms.countP (fun a => a.atomicNum = 7) : ℚ),
       (m.atoms.countP (fun a => a.atomicNum = 8) : ℚ),
       (m.atoms.countP (fun a => a.atomicNum = 15) : ℚ),
       (m.atoms.countP (fun a => a.atomicNum = 16) : ℚ),
       (m.numHBA : ℚ), (m.numHBD : ℚ), m.cLogP,
       (m.atoms.countP (fun a =>
          a.chiralTag = ChiralType.CHI_TETRAHEDRAL_CW ∨
          a.chiralTag = ChiralType.CHI_TETRAHEDRAL_CCW) : ℚ),
       (count_ring_systems m.rings : ℚ)] := by
    simp only [calculate_descriptors, sortedElementNumbers, atom_counts,
      List.map_cons, List.map_nil, if_pos_count_cast, List.cons_append,
      List.nil_append]
  exact ⟨by rw [hlist]; rfl, hlist⟩

end Muv
